import Mathlib

/-!
Shallow embedding of src/rfremoterunner/utils.py (robotframework-remoterunner).

Modeling conventions:
- Python strings are `List Char`; Python bytes are `List Nat` (a well-formed
  file holds bytes < 256).
- The filesystem is an association list from slash-separated relative paths
  (keys, relative to the process working directory) to file contents; the
  first matching key is authoritative.  `shutil.make_archive(base, 'zip',
  base_dir=p)` with the default `root_dir` (the cwd) stores member names that
  start with `p` itself, and `shutil.unpack_archive(f, format='zip')` with the
  default `extract_dir` extracts into the cwd; both are modeled directly on
  this filesystem.
- The concrete zip byte layout is abstracted by an explicit, executable and
  invertible serialization of the member list (unary length prefixes, every
  emitted byte < 256).  The claims under verification depend only on the
  archive bytes being a deterministic invertible coding of the member list.
- base64 (`b64encode`/`b64decode`) is modeled faithfully: 3-byte groups to
  4 alphabet characters with `=` padding; decoding first discards characters
  outside the alphabet (Python's default `validate=False`) and then requires
  well-formed 4-character groups with terminal padding.
- Machine text I/O: `io.open(path, 'r'/'w')` in text mode with the default
  `newline=None` reads with universal-newline translation and writes with
  `os.linesep` translation; the POSIX `os.linesep = '\n'` is modeled.  The
  byte-encoding layer is abstracted: both sides of the claims use the same
  encoding, whose encode/decode composition is the identity for supported
  encodings, so text files store decoded characters.
-/

/-! ### Python module initialization (utils.py lines 1-19 plus the def lines)

A top-level statement is modeled by the global names it reads and the global
names it binds.  Module initialization executes the statements in order and
raises NameError at the first read of a name that is neither a module global
nor a builtin, which models CPython's global-then-builtins name resolution. -/

structure PyStmt where
  reads : List String
  binds : List String

inductive InitResult where
  | ok (env : List String)
  | nameError (nm : String)
  deriving DecidableEq

/-- Builtins read by the module's top-level statements (`str` at line 19);
`open` and `print` are listed to model that builtins exist beneath globals. -/
def pyBuiltins : List String := ["str", "open", "print"]

/-- Implicit globals present in a module's namespace before its first
statement runs. -/
def initialGlobals : List String := ["__name__", "__file__", "__doc__", "__builtins__"]

/-- Top-level statements of utils.py in source order: the reads and binds of
lines 1-7 (imports), 9 (logging.basicConfig with an f-string reading
`__name__`), 10 (`logger = logging.getLogger(__file__)`), 11
(`logger.setLevel(logging.DEBUG if debug else logging.INFO)` which reads the
unbound name `debug`), 13 (`PORT_INC_REGEX = ...`), 18-19 (`if six.PY3:
unicode = str`), and the six `def` statements. -/
def moduleStmts : List PyStmt :=
  [ ⟨[], ["open"]⟩,
    ⟨[], ["os"]⟩,
    ⟨[], ["re"]⟩,
    ⟨[], ["six"]⟩,
    ⟨[], ["make_archive", "unpack_archive"]⟩,
    ⟨[], ["b64encode", "b64decode"]⟩,
    ⟨[], ["logging"]⟩,
    ⟨["logging", "__name__"], []⟩,
    ⟨["logging", "__file__"], ["logger"]⟩,
    ⟨["logger", "logging", "debug"], []⟩,
    ⟨[], ["PORT_INC_REGEX"]⟩,
    ⟨["six", "str"], ["unicode"]⟩,
    ⟨[], ["read_file_from_disk"]⟩,
    ⟨[], ["read_binary_from_disk"]⟩,
    ⟨[], ["write_file_to_disk"]⟩,
    ⟨[], ["write_binary_to_disk"]⟩,
    ⟨[], ["normalize_xmlrpc_address"]⟩,
    ⟨[], ["calculate_ts_parent_path"]⟩ ]

/-- Run top-level statements in order; stop with NameError at the first read
of a name bound neither in the module globals nor in the builtins. -/
def stmtSeqRun : List String → List PyStmt → InitResult
  | env, [] => .ok env
  | env, s :: rest =>
    match s.reads.find? (fun n => !(env.contains n || pyBuiltins.contains n)) with
    | some n => .nameError n
    | none => stmtSeqRun (env ++ s.binds) rest

/-- Result of `import rfremoterunner.utils`: running the module body. -/
def moduleImportResult : InitResult := stmtSeqRun initialGlobals moduleStmts

/-! ### Generic character/list helpers -/

/-- Boolean prefix test: `startsWithChars p s` holds when `p` is an initial
segment of `s` (models `str.startswith`). -/
def startsWithChars : List Char → List Char → Bool
  | [], _ => true
  | _ :: _, [] => false
  | p :: ps, s :: ss => p = s && startsWithChars ps ss

/-- Split a character list on a separator character; `splitOnChar '/' s`
yields the slash-separated components of `s` (like Python `s.split('/')`). -/
def splitOnChar (sep : Char) (s : List Char) : List (List Char) :=
  s.foldr (fun c acc =>
    if c = sep then [] :: acc
    else
      match acc with
      | [] => [[c]]
      | h :: t => (c :: h) :: t) [[]]

/-- A clean relative path: nonempty slash-separated components, none of them
`.` or `..`.  On such paths `os.path.normpath` is the identity and
`os.path.basename` returns the last component, so the model below agrees
with the Python functions exactly on these paths. -/
def cleanRelPath (p : List Char) : Bool :=
  (splitOnChar '/' p).all (fun comp =>
    !comp.isEmpty && decide (comp ≠ ['.']) && decide (comp ≠ ['.', '.']))

/-- Leaf name of a path: `os.path.basename(os.path.normpath(p))` for clean
relative paths (utils.py line 53). -/
def basenameOfPath (p : List Char) : List Char :=
  (splitOnChar '/' p).getLastD []

/-- Split a list into runs terminated by (and keeping) the separator element;
models `file_handle.readlines()` (and bytes `readlines` with `sep = 10`). -/
def splitKeep {α : Type} [DecidableEq α] (sep : α) (s : List α) : List (List α) :=
  s.foldr (fun c acc =>
    if c = sep then [c] :: acc
    else
      match acc with
      | [] => [[c]]
      | h :: t => (c :: h) :: t) []

/-! ### base64 (Python `base64.b64encode` / `base64.b64decode`) -/

/-- The standard base64 alphabet in index order. -/
def b64Alphabet : List Char :=
  ("ABCDEFGHIJKLMNOPQRSTUVWXYZabcdefghijklmnopqrstuvwxyz0123456789+/").data

/-- Character for a sextet value (0..63). -/
def sextetChar (k : Nat) : Char := b64Alphabet.getD k 'A'

/-- Sextet value of an alphabet character (its index in the alphabet). -/
def sextetVal (c : Char) : Nat := b64Alphabet.indexOf c

/-- Characters kept by Python's lenient decoder: alphabet plus padding. -/
def b64KeepChar (c : Char) : Bool := b64Alphabet.contains c || c = '='

/-- base64-encode a byte list: 3-byte groups become 4 alphabet characters,
with `=` padding for a 1- or 2-byte final group. -/
def b64encode : List Nat → List Char
  | [] => []
  | [x] => [sextetChar (x / 4), sextetChar (x % 4 * 16), '=', '=']
  | [x, y] => [sextetChar (x / 4), sextetChar (x % 4 * 16 + y / 16), sextetChar (y % 16 * 4), '=']
  | x :: y :: z :: rest =>
    sextetChar (x / 4) :: sextetChar (x % 4 * 16 + y / 16) ::
      sextetChar (y % 16 * 4 + z / 64) :: sextetChar (z % 64) :: b64encode rest

/-- Decode a base64 text already filtered to alphabet-or-padding characters:
well-formed 4-character groups, padding only in the final group. -/
def decodeB64Clean : List Char → Option (List Nat)
  | [] => some []
  | a :: b :: c :: d :: rest =>
    if a = '=' || b = '=' then none
    else if c = '=' then
      if d = '=' && rest.isEmpty then some [sextetVal a * 4 + sextetVal b / 16]
      else none
    else if d = '=' then
      if rest.isEmpty then
        some [sextetVal a * 4 + sextetVal b / 16, sextetVal b % 16 * 16 + sextetVal c / 4]
      else none
    else
      (decodeB64Clean rest).map (fun tl =>
        (sextetVal a * 4 + sextetVal b / 16) ::
          (sextetVal b % 16 * 16 + sextetVal c / 4) ::
          (sextetVal c % 4 * 64 + sextetVal d) :: tl)
  | _ => none

/-- Errors surfaced by the modeled library operations. -/
inductive PyError where
  | ioError (path : List Char)
  | b64Error
  | badZip
  deriving DecidableEq

deriving instance DecidableEq for Except

/-- Python `base64.b64decode` with the default `validate=False`: discard
characters outside the alphabet, then decode strict 4-character groups;
a malformed remainder raises `binascii.Error`. -/
def b64decode (s : List Char) : Except PyError (List Nat) :=
  match decodeB64Clean (s.filter b64KeepChar) with
  | none => .error .b64Error
  | some bs => .ok bs

/-! ### Archive byte model (zip contents as an invertible serialization)

`Archive` is the member list of a zip file: member name (full path as stored
by `make_archive`) and member bytes.  `zipBytes` serializes it to bytes and
`zipParse` is its inverse; parse failure models `shutil.ReadError` on a
non-zip payload.  Lengths and character codes use a unary coding so that all
emitted bytes are 0 or 1 (hence < 256) and everything reduces in the kernel. -/

abbrev Archive := List (List Char × List Nat)

/-- Unary coding of a natural number: `n` ones then a zero. -/
def serNat (n : Nat) : List Nat := List.replicate n 1 ++ [0]

/-- Inverse of `serNat`: count leading nonzero bytes up to the first zero. -/
def parseNat : List Nat → Option (Nat × List Nat)
  | [] => none
  | b :: rest =>
    if b = 0 then some (0, rest)
    else (parseNat rest).map (fun pr => (pr.1 + 1, pr.2))

/-- Read exactly `n` raw bytes. -/
def parseExact : Nat → List Nat → Option (List Nat × List Nat)
  | 0, rest => some ([], rest)
  | _ + 1, [] => none
  | n + 1, b :: rest => (parseExact n rest).map (fun pr => (b :: pr.1, pr.2))

/-- Serialize a member name: length, then each character code. -/
def serChars (s : List Char) : List Nat :=
  serNat s.length ++ s.flatMap (fun c => serNat c.toNat)

/-- Read `n` serialized characters. -/
def parseChars : Nat → List Nat → Option (List Char × List Nat)
  | 0, rest => some ([], rest)
  | n + 1, rest =>
    match parseNat rest with
    | none => none
    | some (code, r1) =>
      match parseChars n r1 with
      | none => none
      | some (cs, r2) => some (Char.ofNat code :: cs, r2)

/-- Serialize one archive member. -/
def serMember (m : List Char × List Nat) : List Nat :=
  serChars m.1 ++ serNat m.2.length ++ m.2

/-- Byte serialization of an archive: member count then members. -/
def zipBytes (z : Archive) : List Nat :=
  serNat z.length ++ z.flatMap serMember

/-- Read `n` serialized members. -/
def parseMembers : Nat → List Nat → Option (Archive × List Nat)
  | 0, rest => some ([], rest)
  | n + 1, rest =>
    match parseNat rest with
    | none => none
    | some (nameLen, r1) =>
      match parseChars nameLen r1 with
      | none => none
      | some (nm, r2) =>
        match parseNat r2 with
        | none => none
        | some (byteLen, r3) =>
          match parseExact byteLen r3 with
          | none => none
          | some (bs, r4) =>
            match parseMembers n r4 with
            | none => none
            | some (ms, r5) => some ((nm, bs) :: ms, r5)

/-- Parse archive bytes back into the member list; trailing garbage or a
malformed stream parses to `none` (a non-zip payload). -/
def zipParse (bs : List Nat) : Option Archive :=
  match parseNat bs with
  | none => none
  | some (n, r) =>
    match parseMembers n r with
    | none => none
    | some (z, r2) => if r2.isEmpty then some z else none

/-! ### Filesystem model and the binary archive functions -/

abbrev Disk := List (List Char × List Nat)

/-- First-match lookup of a file's contents. -/
def fsGet {β : Type} : List (List Char × β) → List Char → Option β
  | [], _ => none
  | e :: es, k => if e.1 = k then some e.2 else fsGet es k

/-- Remove every entry with the given key (models file deletion). -/
def fsErase {β : Type} : List (List Char × β) → List Char → List (List Char × β)
  | [], _ => []
  | e :: es, k => if e.1 = k then fsErase es k else e :: fsErase es k

/-- Create or overwrite a file (models `open(..., 'w'/'wb')` plus write). -/
def fsSet {β : Type} (fs : List (List Char × β)) (k : List Char) (v : β) :
    List (List Char × β) :=
  (k, v) :: fsErase fs k

/-- Well-formed disk: keys are distinct and every stored byte is < 256. -/
def DiskWF (fs : Disk) : Prop :=
  (fs.map Prod.fst).Nodup ∧ ∀ e ∈ fs, ∀ b ∈ e.2, b < 256

/-- Members archived by `make_archive(filename, 'zip', base_dir=path)` with
the default `root_dir` (the cwd): every file strictly under `path`, with its
member name equal to its full path.  Directory placeholder members and the
platform walk order are abstracted (the claims are insensitive to both for
well-formed disks). -/
def zipOfDir (fs : Disk) (dir : List Char) : Archive :=
  fs.filter (fun e => startsWithChars (dir ++ ['/']) e.1)

/-- Extraction of archive members into the cwd (`unpack_archive` with the
default `extract_dir`): each member is written at its member name,
overwriting existing files. -/
def extractAll (fs : Disk) (z : Archive) : Disk :=
  z.foldl (fun f m => fsSet f m.1 m.2) fs

/-- Result of `read_binary_from_disk`: base64 text by default, raw byte
lines when `into_lines` is set. -/
inductive BinRet where
  | text (s : List Char)
  | lines (ls : List (List Nat))
  deriving DecidableEq

/-- utils.py lines 41-60, `read_binary_from_disk(path, into_lines=False)`:
compute `filename = basename(normpath(path))`; `make_archive(filename,
'zip', base_dir=path)` creates `filename + '.zip'` in the cwd holding the
archive of the tree under `path` (on a missing directory it creates the
empty archive skeleton and raises); read the archive bytes, base64-encode
them (or split raw lines when `into_lines`), delete the archive file, and
return.  The returned pair is (result, filesystem after the call). -/
def read_binary_from_disk (fs : Disk) (path : List Char) (into_lines : Bool) :
    Except PyError BinRet × Disk :=
  let filename := basenameOfPath path
  let zipname := filename ++ (".zip").data
  let members := zipOfDir fs path
  if members.isEmpty then
    (.error (.ioError path), fsSet fs zipname (zipBytes []))
  else
    let zbytes := zipBytes members
    let ret := if into_lines then BinRet.lines (splitKeep 10 zbytes)
      else BinRet.text (b64encode zbytes)
    (.ok ret, fsErase (fsSet fs zipname zbytes) zipname)

/-- utils.py lines 78-91, `write_binary_to_disk(path, file_contents)`:
`open(path, 'wb')` truncates/creates the file at `path` itself, then
`b64decode(file_contents)` is written to it (a decode error propagates,
leaving the truncated file); `unpack_archive(path, format='zip')` reads the
file back and extracts its members into the cwd.  The archive file at `path`
is never removed.  The returned pair is (result, filesystem after). -/
def write_binary_to_disk (fs : Disk) (path : List Char) (file_contents : List Char) :
    Except PyError Unit × Disk :=
  match b64decode file_contents with
  | .error e => (.error e, fsSet fs path [])
  | .ok bs =>
    let fs1 := fsSet fs path bs
    match fsGet fs1 path with
    | none => (.error (.ioError path), fs1)
    | some content =>
      match zipParse content with
      | none => (.error .badZip, fs1)
      | some z => (.ok (), extractAll fs1 z)

/-! ### Text file functions (utils.py lines 22-38 and 62-75) -/

abbrev TextDisk := List (List Char × List Char)

/-- Result of `read_file_from_disk`: a single string, or a line list when
`into_lines` is requested. -/
inductive ReadRet where
  | str (s : List Char)
  | lines (ls : List (List Char))
  deriving DecidableEq

/-- POSIX `os.linesep`. -/
def osLinesep : List Char := ['\n']

/-- Text-mode write translation with the default `newline=None`: every
`'\n'` written becomes `os.linesep`. -/
def writeNewlineTranslated (s : List Char) : List Char :=
  s.flatMap (fun c => if c = '\n' then osLinesep else [c])

/-- Text-mode read translation with the default `newline=None` (universal
newlines): `"\r\n"` and `"\r"` both become `"\n"`. -/
def universalNewlines : List Char → List Char
  | [] => []
  | [c] => if c = '\r' then ['\n'] else [c]
  | c :: c2 :: rest =>
    if c = '\r' then
      if c2 = '\n' then '\n' :: universalNewlines rest
      else '\n' :: universalNewlines (c2 :: rest)
    else c :: universalNewlines (c2 :: rest)

/-- utils.py lines 22-38, `read_file_from_disk(path, encoding='utf-8',
into_lines=False)`: open the file for text reading (missing path raises
IOError), decode with `encoding` and universal newlines, and return the full
text or its lines.  The byte-decoding layer of `encoding` is abstracted (see
the module comment); the parameter is kept for signature fidelity. -/
def read_file_from_disk (fs : TextDisk) (path : List Char) (encoding : List Char)
    (into_lines : Bool) : Except PyError ReadRet :=
  match fsGet fs path with
  | none => .error (.ioError path)
  | some stored =>
    let text := universalNewlines stored
    .ok (if into_lines then ReadRet.lines (splitKeep '\n' text) else ReadRet.str text)

/-- utils.py lines 62-75, `write_file_to_disk(path, file_contents,
encoding='utf-8')`: open for text writing (truncating), write
`unicode(file_contents)` (the identity on Python 3 strings) with newline
translation, close deterministically. -/
def write_file_to_disk (fs : TextDisk) (path : List Char) (file_contents : List Char)
    (encoding : List Char) : TextDisk :=
  fsSet fs path (writeNewlineTranslated file_contents)

/-! ### Address normalization (utils.py lines 13 and 93-109) -/

/-- Python regex tail `[0-9]{1,5}$` applied to the text after the colon:
either 1-5 digits ending the string, or 1-5 digits followed by the final
newline (Python `$` also matches just before a trailing newline). -/
def dollarDigits (t : List Char) : Bool :=
  (decide (1 ≤ t.length) && decide (t.length ≤ 5) && t.all Char.isDigit)
  || (t.getLast? == some '\n' && decide (1 ≤ t.length - 1) && decide (t.length - 1 ≤ 5)
      && t.dropLast.all Char.isDigit)

/-- One split of `re.match('.*:[0-9]{1,5}$', s)`: `.*` consumes the first `i`
characters (`.` does not match a newline), then a colon, then `[0-9]{1,5}$`. -/
def regexMatchAt (s : List Char) (i : Nat) : Bool :=
  (s.take i).all (fun c => decide (c ≠ '\n')) && (s.get? i == some ':')
    && dollarDigits (s.drop (i + 1))

/-- `re.match(re.compile('.*:[0-9]{1,5}$'), address)` succeeds iff some split
position works (utils.py line 105 with PORT_INC_REGEX from line 13). -/
def portIncMatch (s : List Char) : Bool :=
  (List.range (s.length + 1)).any (regexMatchAt s)

/-- ASCII lowercase of a string (models `str.lower()` for ASCII input). -/
def lowerChars (s : List Char) : List Char := s.map Char.toLower

/-- utils.py lines 93-109, `normalize_xmlrpc_address(address, default_port)`:
append `':default_port'` unless the port regex matches, then prepend
`'http://'` unless the (possibly extended) address lowercases to something
starting with `'http'`. -/
def normalize_xmlrpc_address (address : List Char) (default_port : Int) : List Char :=
  let addr2 := if portIncMatch address then address
    else address ++ ':' :: (toString default_port).data
  if startsWithChars ("http").data (lowerChars addr2) then addr2
  else ("http://").data ++ addr2

/-- Spec-words port condition for claim C5: the address ends with a colon
followed by 1-5 digits.  `suffixCheck s k` checks a digit suffix of length
exactly `k` preceded by a colon. -/
def suffixCheck (s : List Char) (k : Nat) : Bool :=
  decide (k + 1 ≤ s.length) && (s.get? (s.length - k - 1) == some ':')
    && (s.drop (s.length - k)).all Char.isDigit

/-- Spec-words version of the port test (claim C5: "ends with a colon
followed by 1-5 digits"). -/
def endsWithColonDigits (s : List Char) : Bool :=
  (List.range 5).any (fun j => suffixCheck s (j + 1))

/-- Address normalization as worded by the spec and claim C5, for comparison
with `normalize_xmlrpc_address`: identical except that the port test is the
literal "ends with a colon followed by 1-5 digits". -/
def specNormalizeAddress (address : List Char) (default_port : Int) : List Char :=
  let addr2 := if endsWithColonDigits address then address
    else address ++ ':' :: (toString default_port).data
  if startsWithChars ("http").data (lowerChars addr2) then addr2
  else ("http://").data ++ addr2

/-! ### Test-suite ancestry path (utils.py lines 112-133) -/

/-- A test suite node: a name plus an optional parent chain (the `parent`
back-reference of `robot.running.model.TestSuite`). -/
inductive Suite where
  | root (nm : List Char)
  | child (nm : List Char) (up : Suite)

/-- The `parent` attribute. -/
def suiteParent : Suite → Option Suite
  | .root _ => none
  | .child _ p => some p

/-- Names collected by the `while current_suite:` loop started at this node:
the node's own name, then its ancestors' names up to the root (utils.py
lines 127-130 run this from `suite.parent`). -/
def chainNames : Suite → List (List Char)
  | .root nm => [nm]
  | .child nm p => nm :: chainNames p

/-- POSIX `os.path.join` of two segments: a second segment starting with
`'/'` replaces the first; otherwise a `'/'` separator is inserted unless the
first segment is empty or already ends with `'/'`. -/
def joinTwo (a b : List Char) : List Char :=
  if startsWithChars ['/'] b then b
  else if a.isEmpty || a.getLast? == some '/' then a ++ b
  else a ++ '/' :: b

/-- POSIX `os.path.join(*parts)` (parts is nonempty at the call site). -/
def osPathJoin : List (List Char) → List Char
  | [] => []
  | h :: t => t.foldl joinTwo h

/-- Replace each backslash with a forward slash (`.replace('\\', '/')` with a
single-character pattern is a character map). -/
def backslashToSlash (s : List Char) : List Char :=
  s.map (fun c => if c = '\\' then '/' else c)

/-- utils.py lines 112-133, `calculate_ts_parent_path(suite)`: empty string
when the node has no parent; otherwise collect ancestor names bottom-up,
reverse them, `os.path.join` them and convert backslashes. -/
def calculate_ts_parent_path : Suite → List Char
  | .root _ => []
  | .child _ p => backslashToSlash (osPathJoin ((chainNames p).reverse))

/-- Plain forward-slash join of name segments, as worded by claim C7
("joined with forward slashes"). -/
def slashJoined : List (List Char) → List Char
  | [] => []
  | h :: t => h ++ t.flatMap (fun nm => '/' :: nm)

/-- Well-formed suite name for claim C7: nonempty, neither starting nor
ending with a forward slash (so `os.path.join` inserts exactly one
separator). -/
def WFName (nm : List Char) : Prop :=
  nm ≠ [] ∧ nm.head? ≠ some '/' ∧ nm.getLast? ≠ some '/'

instance (nm : List Char) : Decidable (WFName nm) :=
  decidable_of_iff (nm ≠ [] ∧ nm.head? ≠ some '/' ∧ nm.getLast? ≠ some '/') Iff.rfl

/-! ### Theorems.  Claim C1: module import fails with NameError. -/

/-- Claim C1: importing the module fails before any helper can be called.
Running the module body stops at the statement `logger.setLevel(logging.DEBUG
if debug else logging.INFO)` with a NameError for `debug`, a name bound
nowhere in the module (neither an initial global, nor a builtin, nor bound by
any top-level statement), so module initialization never reaches the `def`
statements and no function of the module is reachable through a normal
import. -/
theorem claim1_module_import_raises_nameerror :
    moduleImportResult = InitResult.nameError ("debug")
      ∧ ("debug") ∉ initialGlobals
      ∧ ("debug") ∉ pyBuiltins
      ∧ ("debug") ∉ moduleStmts.flatMap PyStmt.binds
      ∧ ∀ env, moduleImportResult ≠ InitResult.ok env := by
  refine ⟨by decide, by decide, by decide, by decide, ?_⟩
  intro env h
  have : moduleImportResult = InitResult.nameError ("debug") := by decide
  rw [this] at h
  exact InitResult.noConfusion h

/-! ### Association-list filesystem lemmas -/

theorem fsGet_set_self {β : Type} (fs : List (List Char × β)) (k : List Char) (v : β) :
    fsGet (fsSet fs k v) k = some v := by
  simp [fsSet, fsGet]

theorem fsGet_erase_ne {β : Type} (fs : List (List Char × β)) (k j : List Char)
    (h : j ≠ k) : fsGet (fsErase fs k) j = fsGet fs j := by
  induction fs with
  | nil => rfl
  | cons e es ih =>
    by_cases hk : e.1 = k
    · have hkj : ¬ (k = j) := fun hh => h hh.symm
      simp [fsErase, fsGet, hk, hkj, ih]
    · by_cases hj : e.1 = j
      · simp [fsErase, fsGet, hk, hj, h]
      · simp [fsErase, fsGet, hk, hj, ih]

theorem fsGet_set_ne {β : Type} (fs : List (List Char × β)) (k j : List Char) (v : β)
    (h : j ≠ k) : fsGet (fsSet fs k v) j = fsGet fs j := by
  have hk : k ≠ j := fun hh => h hh.symm
  simp [fsSet, fsGet, hk]
  exact fsGet_erase_ne fs k j h

theorem fsGet_erase_self {β : Type} (fs : List (List Char × β)) (k : List Char) :
    fsGet (fsErase fs k) k = none := by
  induction fs with
  | nil => rfl
  | cons e es ih =>
    by_cases hk : e.1 = k
    · simp [fsErase, hk, ih]
    · simp [fsErase, fsGet, hk, ih]

theorem fsErase_of_get_none {β : Type} (fs : List (List Char × β)) (k : List Char)
    (h : fsGet fs k = none) : fsErase fs k = fs := by
  induction fs with
  | nil => rfl
  | cons e es ih =>
    by_cases hk : e.1 = k
    · simp [fsGet, hk] at h
    · simp [fsGet, hk] at h
      simp [fsErase, hk, ih h]

theorem fsErase_erase_self {β : Type} (fs : List (List Char × β)) (k : List Char) :
    fsErase (fsErase fs k) k = fsErase fs k := by
  induction fs with
  | nil => rfl
  | cons e es ih =>
    by_cases hk : e.1 = k
    · simp [fsErase, hk, ih]
    · simp [fsErase, hk, ih]

theorem fsErase_set_self {β : Type} (fs : List (List Char × β)) (k : List Char) (v : β) :
    fsErase (fsSet fs k v) k = fsErase fs k := by
  simp [fsSet, fsErase, fsErase_erase_self]

theorem fsGet_of_nodup_mem {β : Type} (fs : List (List Char × β)) (k : List Char) (v : β)
    (hnd : (fs.map Prod.fst).Nodup) (hm : (k, v) ∈ fs) : fsGet fs k = some v := by
  induction fs with
  | nil => cases hm
  | cons e es ih =>
    rw [List.map_cons] at hnd
    have hnd2 := List.nodup_cons.mp hnd
    rcases List.mem_cons.mp hm with he | he
    · subst he
      simp [fsGet]
    · have h1 : ¬ (e.1 = k) := by
        intro hh
        apply hnd2.1
        rw [hh]
        exact List.mem_map.mpr ⟨(k, v), he, rfl⟩
      simp [fsGet, h1]
      exact ih hnd2.2 he

/-! ### Extraction lemmas -/

theorem extractAll_cons (fs : Disk) (m : List Char × List Nat) (ms : Archive) :
    extractAll fs (m :: ms) = extractAll (fsSet fs m.1 m.2) ms := by
  simp [extractAll]

theorem fsGet_extractAll_of_agree (z : Archive) :
    ∀ (fs : Disk), (∀ m ∈ z, fsGet fs m.1 = some m.2) →
      ∀ k, fsGet (extractAll fs z) k = fsGet fs k := by
  induction z with
  | nil => intro fs _ k; rfl
  | cons m ms ih =>
    intro fs h k
    have hm : fsGet fs m.1 = some m.2 := h m (by simp)
    have hstep : ∀ j, fsGet (fsSet fs m.1 m.2) j = fsGet fs j := by
      intro j
      by_cases hj : j = m.1
      · rw [hj, fsGet_set_self, hm]
      · exact fsGet_set_ne fs m.1 j m.2 hj
    have hrest : ∀ m2 ∈ ms, fsGet (fsSet fs m.1 m.2) m2.1 = some m2.2 := by
      intro m2 hm2
      rw [hstep m2.1]
      exact h m2 (by simp [hm2])
    rw [extractAll_cons, ih (fsSet fs m.1 m.2) hrest k, hstep k]

theorem fsGet_extractAll_not_mem (z : Archive) :
    ∀ (fs : Disk) (k : List Char), (∀ m ∈ z, m.1 ≠ k) →
      fsGet (extractAll fs z) k = fsGet fs k := by
  induction z with
  | nil => intro fs k _; rfl
  | cons m ms ih =>
    intro fs k h
    rw [extractAll_cons, ih _ k (fun m2 hm2 => h m2 (by simp [hm2]))]
    exact fsGet_set_ne fs m.1 k m.2 (fun hh => h m (by simp) hh.symm)

theorem fsGet_extractAll_mem (z : Archive) :
    ∀ (fs : Disk) (k : List Char) (v : List Nat), (z.map Prod.fst).Nodup →
      (k, v) ∈ z → fsGet (extractAll fs z) k = some v := by
  induction z with
  | nil => intro fs k v _ hm; cases hm
  | cons m ms ih =>
    intro fs k v hnd hm
    rw [List.map_cons] at hnd
    have hnd2 := List.nodup_cons.mp hnd
    rcases List.mem_cons.mp hm with he | he
    · have hk : m.1 = k := by rw [← he]
      have hv : m.2 = v := by rw [← he]
      have hns : ∀ m2 ∈ ms, m2.1 ≠ k := by
        intro m2 hm2 hh
        apply hnd2.1
        rw [hk, ← hh]
        exact List.mem_map.mpr ⟨m2, hm2, rfl⟩
      rw [extractAll_cons, fsGet_extractAll_not_mem ms _ k hns, ← hk, ← hv,
        fsGet_set_self]
    · exact ih _ k v hnd2.2 he

/-! ### Serialization round-trip lemmas -/

theorem parseNat_serNat (n : Nat) (t : List Nat) :
    parseNat (serNat n ++ t) = some (n, t) := by
  induction n with
  | zero => simp [serNat, parseNat]
  | succ n ih =>
    have : serNat (n + 1) ++ t = 1 :: (serNat n ++ t) := by
      simp [serNat, List.replicate_succ]
    rw [this]
    simp [parseNat, ih]

theorem parseExact_append (xs t : List Nat) :
    parseExact xs.length (xs ++ t) = some (xs, t) := by
  induction xs with
  | nil => simp [parseExact]
  | cons b rest ih => simp [parseExact, ih]

theorem parseChars_payload (s : List Char) (t : List Nat) :
    parseChars s.length (s.flatMap (fun c => serNat c.toNat) ++ t) = some (s, t) := by
  induction s with
  | nil => simp [parseChars]
  | cons c cs ih =>
    have : (c :: cs).flatMap (fun c => serNat c.toNat) ++ t
        = serNat c.toNat ++ (cs.flatMap (fun c => serNat c.toNat) ++ t) := by
      simp
    rw [List.length_cons, this]
    simp [parseChars, parseNat_serNat, ih, Char.ofNat_toNat]

theorem parseMembers_append (z : Archive) (t : List Nat) :
    parseMembers z.length (z.flatMap serMember ++ t) = some (z, t) := by
  induction z with
  | nil => simp [parseMembers]
  | cons m ms ih =>
    have : (m :: ms).flatMap serMember ++ t
        = serNat m.1.length ++ (m.1.flatMap (fun c => serNat c.toNat)
            ++ (serNat m.2.length ++ (m.2 ++ (ms.flatMap serMember ++ t)))) := by
      simp [serMember, serChars]
    rw [List.length_cons, this]
    simp [parseMembers, parseNat_serNat, parseChars_payload, parseExact_append, ih]

theorem zipParse_zipBytes (z : Archive) : zipParse (zipBytes z) = some z := by
  have h1 : zipBytes z = serNat z.length ++ (z.flatMap serMember ++ []) := by
    simp [zipBytes]
  rw [zipParse, h1, parseNat_serNat]
  have h2 : parseMembers z.length (z.flatMap serMember) = some (z, []) := by
    simpa using parseMembers_append z []
  simp [h2]

/-! ### base64 lemmas -/

theorem sextet_val_char : ∀ k, k < 64 → sextetVal (sextetChar k) = k := by decide

theorem sextet_keep : ∀ k, k < 64 → b64KeepChar (sextetChar k) = true := by decide

theorem sextet_ne_pad : ∀ k, k < 64 → ¬ (sextetChar k = '=') := by decide

/-- Case analysis for byte lists in the 3-byte groups used by base64. -/
theorem listThreeCases (P : List Nat → Prop) (h0 : P []) (h1 : ∀ x, P [x])
    (h2 : ∀ x y, P [x, y]) (h3 : ∀ x y z rest, P rest → P (x :: y :: z :: rest)) :
    ∀ l, P l
  | [] => h0
  | [x] => h1 x
  | [x, y] => h2 x y
  | x :: y :: z :: rest => h3 x y z rest (listThreeCases P h0 h1 h2 h3 rest)

theorem b64encode_mem_keep :
    ∀ bs, (∀ b ∈ bs, b < 256) → ∀ c ∈ b64encode bs, b64KeepChar c = true := by
  refine listThreeCases _ ?_ ?_ ?_ ?_
  · intro _ c hc
    simp [b64encode] at hc
  · intro x h c hc
    have hx : x < 256 := h x (by simp)
    simp [b64encode] at hc
    rcases hc with rfl | rfl | rfl
    · exact sextet_keep _ (by omega)
    · exact sextet_keep _ (by omega)
    · decide
  · intro x y h c hc
    have hx : x < 256 := h x (by simp)
    have hy : y < 256 := h y (by simp)
    simp [b64encode] at hc
    rcases hc with rfl | rfl | rfl | rfl
    · exact sextet_keep _ (by omega)
    · exact sextet_keep _ (by omega)
    · exact sextet_keep _ (by omega)
    · decide
  · intro x y z rest ih h c hc
    have hx : x < 256 := h x (by simp)
    have hy : y < 256 := h y (by simp)
    have hz : z < 256 := h z (by simp)
    simp [b64encode] at hc
    rcases hc with rfl | rfl | rfl | rfl | hc
    · exact sextet_keep _ (by omega)
    · exact sextet_keep _ (by omega)
    · exact sextet_keep _ (by omega)
    · exact sextet_keep _ (by omega)
    · exact ih (fun b hb => h b (by simp [hb])) c hc

theorem b64encode_filter_keep (bs : List Nat) (h : ∀ b ∈ bs, b < 256) :
    (b64encode bs).filter b64KeepChar = b64encode bs :=
  List.filter_eq_self.mpr (b64encode_mem_keep bs h)

theorem decodeB64Clean_encode :
    ∀ bs, (∀ b ∈ bs, b < 256) → decodeB64Clean (b64encode bs) = some bs := by
  refine listThreeCases _ ?_ ?_ ?_ ?_
  · intro _; rfl
  · intro x h
    have hx : x < 256 := h x (by simp)
    have e1 := sextet_ne_pad (x / 4) (by omega)
    have e2 := sextet_ne_pad (x % 4 * 16) (by omega)
    simp [b64encode, decodeB64Clean, e1, e2,
      sextet_val_char (x / 4) (by omega), sextet_val_char (x % 4 * 16) (by omega)]
    omega
  · intro x y h
    have hx : x < 256 := h x (by simp)
    have hy : y < 256 := h y (by simp)
    have e1 := sextet_ne_pad (x / 4) (by omega)
    have e2 := sextet_ne_pad (x % 4 * 16 + y / 16) (by omega)
    have e3 := sextet_ne_pad (y % 16 * 4) (by omega)
    simp [b64encode, decodeB64Clean, e1, e2, e3,
      sextet_val_char (x / 4) (by omega), sextet_val_char (x % 4 * 16 + y / 16) (by omega),
      sextet_val_char (y % 16 * 4) (by omega)]
    omega
  · intro x y z rest ih h
    have hx : x < 256 := h x (by simp)
    have hy : y < 256 := h y (by simp)
    have hz : z < 256 := h z (by simp)
    have ih2 := ih (fun b hb => h b (by simp [hb]))
    have e1 := sextet_ne_pad (x / 4) (by omega)
    have e2 := sextet_ne_pad (x % 4 * 16 + y / 16) (by omega)
    have e3 := sextet_ne_pad (y % 16 * 4 + z / 64) (by omega)
    have e4 := sextet_ne_pad (z % 64) (by omega)
    simp [b64encode, decodeB64Clean, e1, e2, e3, e4, ih2,
      sextet_val_char (x / 4) (by omega), sextet_val_char (x % 4 * 16 + y / 16) (by omega),
      sextet_val_char (y % 16 * 4 + z / 64) (by omega), sextet_val_char (z % 64) (by omega)]
    omega

theorem b64decode_b64encode (bs : List Nat) (h : ∀ b ∈ bs, b < 256) :
    b64decode (b64encode bs) = .ok bs := by
  unfold b64decode
  rw [b64encode_filter_keep bs h, decodeB64Clean_encode bs h]

/-! ### Byte-range lemmas for the archive serialization -/

theorem serNat_all_lt (n : Nat) : ∀ b ∈ serNat n, b < 256 := by
  intro b hb
  simp [serNat, List.mem_append, List.mem_replicate] at hb
  rcases hb with ⟨-, rfl⟩ | rfl <;> omega

theorem zipBytes_all_lt (z : Archive) (h : ∀ m ∈ z, ∀ b ∈ m.2, b < 256) :
    ∀ b ∈ zipBytes z, b < 256 := by
  intro b hb
  rw [zipBytes] at hb
  rcases List.mem_append.mp hb with hb1 | hb1
  · exact serNat_all_lt _ _ hb1
  · obtain ⟨m, hm, hb2⟩ := List.mem_flatMap.mp hb1
    rw [serMember] at hb2
    rcases List.mem_append.mp hb2 with hb3 | hb3
    · rcases List.mem_append.mp hb3 with hb4 | hb4
      · rw [serChars] at hb4
        rcases List.mem_append.mp hb4 with hb5 | hb5
        · exact serNat_all_lt _ _ hb5
        · obtain ⟨c, -, hb6⟩ := List.mem_flatMap.mp hb5
          exact serNat_all_lt _ _ hb6
      · exact serNat_all_lt _ _ hb4
    · exact h m hm b hb3

/-! ### Claim C9: no leaked temporary archive -/

/-- Claim C9: whenever `read_binary_from_disk` returns successfully, the
temporary zip archive file it created (named after the leaf directory name
plus `.zip`, in the working directory) no longer exists on the resulting
filesystem: it is deleted before the function returns. -/
theorem claim9_no_zip_leak (fs : Disk) (path : List Char) (il : Bool) (ret : BinRet)
    (fs2 : Disk) (h : read_binary_from_disk fs path il = (.ok ret, fs2)) :
    fsGet fs2 (basenameOfPath path ++ (".zip").data) = none := by
  by_cases he : (zipOfDir fs path).isEmpty
  · simp [read_binary_from_disk, he] at h
  · simp [read_binary_from_disk, he] at h
    rw [← h.2]
    exact fsGet_erase_self _ _

set_option maxRecDepth 100000 in
/-- Witness for claim C9 at a one-file directory. -/
theorem claim9_no_zip_leak_witness :
    read_binary_from_disk [((("d/f").data), [1, 2, 3])] (("d").data) false
        = (.ok (BinRet.text (b64encode (zipBytes [((("d/f").data), [1, 2, 3])]))),
            [((("d/f").data), [1, 2, 3])])
      ∧ fsGet [((("d/f").data), [1, 2, 3])] ((basenameOfPath (("d").data)) ++ (".zip").data)
        = none := by
  refine ⟨by decide, ?_⟩
  exact claim9_no_zip_leak [((("d/f").data), [1, 2, 3])] (("d").data) false
    (BinRet.text (b64encode (zipBytes [((("d/f").data), [1, 2, 3])])))
    [((("d/f").data), [1, 2, 3])] (by decide)

/-! ### Claim C10: errors propagate uncaught -/

/-- Claim C10: no function of the module catches or recovers from an
underlying failure; each modeled failure propagates to the caller unchanged
and no retry happens.  The four conjuncts cover the modeled failure modes:
a missing path in `read_file_from_disk` (IOError), a missing/empty source
directory in `read_binary_from_disk` (the `make_archive` failure), an
invalid base64 payload in `write_binary_to_disk` (`binascii.Error`,
propagated as the same error value), and a syntactically valid base64
payload that is not a zip archive (`shutil.ReadError`). -/
theorem claim10_error_propagation (tfs : TextDisk) (fs fsb fsc : Disk)
    (p1 p2 p3 p4 : List Char) (enc : List Char) (il : Bool)
    (txt1 txt2 : List Char) (e : PyError) (bs : List Nat) :
    (fsGet tfs p1 = none → read_file_from_disk tfs p1 enc il = .error (.ioError p1))
    ∧ (zipOfDir fs p2 = [] → (read_binary_from_disk fs p2 il).1 = .error (.ioError p2))
    ∧ (b64decode txt1 = .error e → (write_binary_to_disk fsb p3 txt1).1 = .error e)
    ∧ (b64decode txt2 = .ok bs → zipParse bs = none →
        (write_binary_to_disk fsc p4 txt2).1 = .error .badZip) := by
  refine ⟨?_, ?_, ?_, ?_⟩
  · intro h
    simp [read_file_from_disk, h]
  · intro h
    simp [read_binary_from_disk, h]
  · intro h
    simp [write_binary_to_disk, h]
  · intro h1 h2
    simp [write_binary_to_disk, h1, fsGet_set_self, h2]

set_option maxRecDepth 100000 in
/-- Witness for claim C10: each antecedent is satisfiable and the matching
error is observed. -/
theorem claim10_error_propagation_witness :
    read_file_from_disk [] (("x").data) (("utf-8").data) false
        = .error (.ioError (("x").data))
    ∧ (read_binary_from_disk [] (("d").data) false).1 = .error (.ioError (("d").data))
    ∧ (write_binary_to_disk [] (("p").data) (("A").data)).1 = .error .b64Error
    ∧ (write_binary_to_disk [] (("q").data) (("AAAA").data)).1 = .error .badZip := by
  have h := claim10_error_propagation [] [] [] [] (("x").data) (("d").data) (("p").data)
    (("q").data) (("utf-8").data) false (("A").data) (("AAAA").data) PyError.b64Error
    [0, 0, 0]
  exact ⟨h.1 (by decide), h.2.1 (by decide), h.2.2.1 (by decide),
    h.2.2.2 (by decide) (by decide)⟩

/-! ### Claim C3: archive member rooting -/

set_option maxRecDepth 100000 in
/-- Counterexample for claim C3: for the directory path `"a/b"` holding one
file `"a/b/f"`, the archive produced by `read_binary_from_disk` has its
single member named `"a/b/f"` — the full path supplied by the caller — which
is not rooted at the leaf directory name `"b"`. -/
theorem claim3_member_rooting_counterexample :
    zipOfDir [((("a/b/f").data), [1])] (("a/b").data) = [((("a/b/f").data), [1])]
    ∧ basenameOfPath (("a/b").data) = ("b").data
    ∧ startsWithChars (("b/").data) (("a/b/f").data) = false
    ∧ (read_binary_from_disk [((("a/b/f").data), [1])] (("a/b").data) false).1
        = .ok (BinRet.text (b64encode (zipBytes [((("a/b/f").data), [1])]))) := by
  refine ⟨by decide, by decide, by decide, by decide⟩

/-- Claim C3 (amended): member names in the archive produced by
`read_binary_from_disk` are rooted at the full directory path supplied by
the caller (every member name extends `path ++ "/"`), not at the leaf
directory name; the leaf name (basename) determines only the temporary
archive file's name.  On success the function returns the base64 encoding of
exactly that archive, having created and then erased `basename + ".zip"`. -/
theorem claim3_member_rooting_amended (fs : Disk) (path : List Char)
    (m : List Char × List Nat) :
    (m ∈ zipOfDir fs path → startsWithChars (path ++ ['/']) m.1 = true)
    ∧ (zipOfDir fs path ≠ [] →
        read_binary_from_disk fs path false
          = (.ok (BinRet.text (b64encode (zipBytes (zipOfDir fs path)))),
              fsErase (fsSet fs (basenameOfPath path ++ (".zip").data)
                  (zipBytes (zipOfDir fs path)))
                (basenameOfPath path ++ (".zip").data))) := by
  constructor
  · intro hm
    exact (List.mem_filter.mp hm).2
  · intro hne
    have he : (zipOfDir fs path).isEmpty = false := by
      cases hz : zipOfDir fs path with
      | nil => exact absurd hz hne
      | cons a l => rfl
    simp [read_binary_from_disk, he]

set_option maxRecDepth 100000 in
/-- Witness for claim C3 (amended) at the two-component path `"a/b"`. -/
theorem claim3_member_rooting_amended_witness :
    startsWithChars ((("a/b").data) ++ ['/']) (("a/b/f").data) = true
    ∧ read_binary_from_disk [((("a/b/f").data), [1])] (("a/b").data) false
        = (.ok (BinRet.text (b64encode (zipBytes
              (zipOfDir [((("a/b/f").data), [1])] (("a/b").data))))),
            fsErase (fsSet [((("a/b/f").data), [1])]
                (basenameOfPath (("a/b").data) ++ (".zip").data)
                (zipBytes (zipOfDir [((("a/b/f").data), [1])] (("a/b").data))))
              (basenameOfPath (("a/b").data) ++ (".zip").data)) := by
  have h := claim3_member_rooting_amended [((("a/b/f").data), [1])] (("a/b").data)
    ((("a/b/f").data), [1])
  exact ⟨h.1 (by decide), h.2 (by decide)⟩

/-! ### Claim C2: archive round trip -/

set_option maxRecDepth 1000000 in
/-- Counterexample for claim C2: read the directory `"d"` (one file `"d/f"`
with bytes `[1, 2, 3]`) and write the returned base64 text to the fresh
destination `"out"`.  Both calls succeed, yet nothing appears under the
destination — `"out/f"` does not exist afterwards — so the round trip does
not reproduce the directory's file set at the fresh destination.  Instead
the file is re-extracted at its original path `"d/f"` and the destination
path `"out"` holds the raw archive bytes. -/
theorem claim2_roundtrip_counterexample :
    (read_binary_from_disk [((("d/f").data), [1, 2, 3])] (("d").data) false).1
        = .ok (BinRet.text (b64encode (zipBytes [((("d/f").data), [1, 2, 3])])))
    ∧ (write_binary_to_disk [((("d/f").data), [1, 2, 3])] (("out").data)
        (b64encode (zipBytes [((("d/f").data), [1, 2, 3])]))).1 = .ok ()
    ∧ fsGet (write_binary_to_disk [((("d/f").data), [1, 2, 3])] (("out").data)
        (b64encode (zipBytes [((("d/f").data), [1, 2, 3])]))).2 (("out/f").data) = none
    ∧ fsGet (write_binary_to_disk [((("d/f").data), [1, 2, 3])] (("out").data)
        (b64encode (zipBytes [((("d/f").data), [1, 2, 3])]))).2 (("d/f").data)
        = some [1, 2, 3]
    ∧ fsGet (write_binary_to_disk [((("d/f").data), [1, 2, 3])] (("out").data)
        (b64encode (zipBytes [((("d/f").data), [1, 2, 3])]))).2 (("out").data)
        = some (zipBytes [((("d/f").data), [1, 2, 3])]) := by
  refine ⟨by decide, by decide, by decide, by decide, by decide⟩

/-- Claim C2 (amended): for a well-formed disk, a clean existing directory
path whose temporary archive name is unused, and a destination that does not
lie under the directory, `read_binary_from_disk` succeeds and leaves the
disk unchanged, and feeding its base64 text to `write_binary_to_disk` at the
destination succeeds and reproduces the directory's file set byte-identically
at its original path relative to the working directory (every key other than
the destination is unchanged, so in particular every file under `path` is);
the destination itself receives the raw zip archive bytes, not the extracted
tree. -/
theorem claim2_roundtrip_amended (fs : Disk) (path dest : List Char)
    (hwf : DiskWF fs)
    (hclean : cleanRelPath path = true)
    (hne : zipOfDir fs path ≠ [])
    (hzip : fsGet fs (basenameOfPath path ++ (".zip").data) = none)
    (hdest : startsWithChars (path ++ ['/']) dest = false) :
    read_binary_from_disk fs path false
        = (.ok (BinRet.text (b64encode (zipBytes (zipOfDir fs path)))), fs)
    ∧ (write_binary_to_disk fs dest (b64encode (zipBytes (zipOfDir fs path)))).1 = .ok ()
    ∧ fsGet (write_binary_to_disk fs dest (b64encode (zipBytes (zipOfDir fs path)))).2 dest
        = some (zipBytes (zipOfDir fs path))
    ∧ ∀ k, k ≠ dest →
        fsGet (write_binary_to_disk fs dest (b64encode (zipBytes (zipOfDir fs path)))).2 k
          = fsGet fs k := by
  have hbytes : ∀ b ∈ zipBytes (zipOfDir fs path), b < 256 := by
    apply zipBytes_all_lt
    intro m hm b hb
    exact hwf.2 m (List.mem_filter.mp hm).1 b hb
  have hdec := b64decode_b64encode (zipBytes (zipOfDir fs path)) hbytes
  have he : (zipOfDir fs path).isEmpty = false := by
    cases hz : zipOfDir fs path with
    | nil => exact absurd hz hne
    | cons a l => rfl
  have hread : read_binary_from_disk fs path false
      = (.ok (BinRet.text (b64encode (zipBytes (zipOfDir fs path)))), fs) := by
    simp [read_binary_from_disk, he]
    rw [fsErase_set_self, fsErase_of_get_none _ _ hzip]
  have hwrite : write_binary_to_disk fs dest (b64encode (zipBytes (zipOfDir fs path)))
      = (.ok (), extractAll (fsSet fs dest (zipBytes (zipOfDir fs path)))
          (zipOfDir fs path)) := by
    simp [write_binary_to_disk, hdec, fsGet_set_self, zipParse_zipBytes]
  have hagree : ∀ m ∈ zipOfDir fs path,
      fsGet (fsSet fs dest (zipBytes (zipOfDir fs path))) m.1 = some m.2 := by
    intro m hm
    have hmem := List.mem_filter.mp hm
    have hmne : m.1 ≠ dest := by
      intro hh
      rw [hh] at hmem
      rw [hmem.2] at hdest
      exact Bool.noConfusion hdest
    rw [fsGet_set_ne _ _ _ _ hmne]
    exact fsGet_of_nodup_mem fs m.1 m.2 hwf.1 (by rw [Prod.mk.eta]; exact hmem.1)
  have hpt := fsGet_extractAll_of_agree (zipOfDir fs path)
    (fsSet fs dest (zipBytes (zipOfDir fs path))) hagree
  refine ⟨hread, by simp [hwrite], ?_, ?_⟩
  · simp [hwrite, hpt dest, fsGet_set_self]
  · intro k hk
    simp [hwrite, hpt k]
    exact fsGet_set_ne _ _ _ _ hk

set_option maxRecDepth 1000000 in
/-- Witness for claim C2 (amended) at the one-file directory `"d"` and the
fresh destination `"out"`. -/
theorem claim2_roundtrip_amended_witness :
    read_binary_from_disk [((("d/f").data), [1, 2, 3])] (("d").data) false
        = (.ok (BinRet.text (b64encode (zipBytes
              (zipOfDir [((("d/f").data), [1, 2, 3])] (("d").data))))),
            [((("d/f").data), [1, 2, 3])])
    ∧ (write_binary_to_disk [((("d/f").data), [1, 2, 3])] (("out").data)
        (b64encode (zipBytes (zipOfDir [((("d/f").data), [1, 2, 3])] (("d").data))))).1
        = .ok ()
    ∧ fsGet (write_binary_to_disk [((("d/f").data), [1, 2, 3])] (("out").data)
        (b64encode (zipBytes (zipOfDir [((("d/f").data), [1, 2, 3])] (("d").data))))).2
        (("out").data)
        = some (zipBytes (zipOfDir [((("d/f").data), [1, 2, 3])] (("d").data)))
    ∧ ∀ k, k ≠ ("out").data →
        fsGet (write_binary_to_disk [((("d/f").data), [1, 2, 3])] (("out").data)
          (b64encode (zipBytes (zipOfDir [((("d/f").data), [1, 2, 3])] (("d").data))))).2 k
          = fsGet [((("d/f").data), [1, 2, 3])] k :=
  claim2_roundtrip_amended [((("d/f").data), [1, 2, 3])] (("d").data) (("out").data)
    ⟨by decide, by decide⟩ (by decide) (by decide) (by decide) (by decide)

/-! ### Claim C4: write_binary_to_disk behavior -/

set_option maxRecDepth 1000000 in
/-- Counterexample for claim C4: writing a valid one-member archive payload
(member `"f"`, bytes `[7]`) to the path `"out"` succeeds, but no file is
created at `"out.zip"` (the raw bytes are written to `"out"` itself, with no
archive extension appended), and the member is extracted at `"f"` in the
working directory, not at `"out/f"` inside a destination directory implied
by the path. -/
theorem claim4_write_binary_counterexample :
    (write_binary_to_disk [] (("out").data) (b64encode (zipBytes [((("f").data), [7])]))).1
        = .ok ()
    ∧ fsGet (write_binary_to_disk [] (("out").data)
        (b64encode (zipBytes [((("f").data), [7])]))).2 (("out.zip").data) = none
    ∧ fsGet (write_binary_to_disk [] (("out").data)
        (b64encode (zipBytes [((("f").data), [7])]))).2 (("out").data)
        = some (zipBytes [((("f").data), [7])])
    ∧ fsGet (write_binary_to_disk [] (("out").data)
        (b64encode (zipBytes [((("f").data), [7])]))).2 (("f").data) = some [7]
    ∧ fsGet (write_binary_to_disk [] (("out").data)
        (b64encode (zipBytes [((("f").data), [7])]))).2 (("out/f").data) = none := by
  refine ⟨by decide, by decide, by decide, by decide, by decide⟩

/-- Claim C4 (amended): for every path and base64 text that decodes to a
valid zip payload (with distinct member names, none equal to the path),
`write_binary_to_disk` base64-decodes the text, writes the raw bytes to the
file at `path` itself — no archive extension is appended — and then extracts
the archive into the current working directory: each member appears at its
member name, overwriting any existing file there, every other key is
untouched, and the archive file at `path` is not removed afterwards. -/
theorem claim4_write_binary_amended (fs : Disk) (path txt : List Char) (bs : List Nat)
    (z : Archive)
    (hdec : b64decode txt = .ok bs)
    (hparse : zipParse bs = some z)
    (hnd : (z.map Prod.fst).Nodup)
    (hpath : ∀ m ∈ z, m.1 ≠ path) :
    (write_binary_to_disk fs path txt).1 = .ok ()
    ∧ fsGet (write_binary_to_disk fs path txt).2 path = some bs
    ∧ (∀ m ∈ z, fsGet (write_binary_to_disk fs path txt).2 m.1 = some m.2)
    ∧ ∀ k, k ≠ path → (∀ m ∈ z, m.1 ≠ k) →
        fsGet (write_binary_to_disk fs path txt).2 k = fsGet fs k := by
  have hw : write_binary_to_disk fs path txt
      = (.ok (), extractAll (fsSet fs path bs) z) := by
    simp [write_binary_to_disk, hdec, fsGet_set_self, hparse]
  refine ⟨by simp [hw], ?_, ?_, ?_⟩
  · simp [hw]
    rw [fsGet_extractAll_not_mem z _ path hpath, fsGet_set_self]
  · intro m hm
    simp [hw]
    exact fsGet_extractAll_mem z _ m.1 m.2 hnd (by rw [Prod.mk.eta]; exact hm)
  · intro k hk hkz
    simp [hw]
    rw [fsGet_extractAll_not_mem z _ k hkz]
    exact fsGet_set_ne _ _ _ _ hk

set_option maxRecDepth 1000000 in
/-- Witness for claim C4 (amended) at the payload with one member `"f"`. -/
theorem claim4_write_binary_amended_witness :
    (write_binary_to_disk [] (("out").data) (b64encode (zipBytes [((("f").data), [7])]))).1
        = .ok ()
    ∧ fsGet (write_binary_to_disk [] (("out").data)
        (b64encode (zipBytes [((("f").data), [7])]))).2 (("out").data)
        = some (zipBytes [((("f").data), [7])])
    ∧ (∀ m ∈ [((("f").data), [7])],
        fsGet (write_binary_to_disk [] (("out").data)
          (b64encode (zipBytes [((("f").data), [7])]))).2 m.1 = some m.2)
    ∧ ∀ k, k ≠ ("out").data → (∀ m ∈ ([((("f").data), [7])] : Archive), m.1 ≠ k) →
        fsGet (write_binary_to_disk [] (("out").data)
          (b64encode (zipBytes [((("f").data), [7])]))).2 k = fsGet [] k :=
  claim4_write_binary_amended [] (("out").data)
    (b64encode (zipBytes [((("f").data), [7])])) (zipBytes [((("f").data), [7])])
    [((("f").data), [7])] (by decide) (by decide) (by decide) (by decide)

/-! ### Claim C8: text round trip -/

theorem writeNewlineTranslated_id (s : List Char) : writeNewlineTranslated s = s := by
  unfold writeNewlineTranslated
  induction s with
  | nil => rfl
  | cons c rest ih =>
    rw [List.flatMap_cons, ih]
    by_cases hc : c = '\n'
    · subst hc
      simp [osLinesep]
    · simp [hc]

theorem universalNewlines_id : ∀ s : List Char, (∀ c ∈ s, c ≠ '\r') →
    universalNewlines s = s
  | [], _ => rfl
  | [c], h => by
    have hc : ¬ (c = '\r') := h c (by simp)
    simp [universalNewlines, hc]
  | c :: c2 :: rest, h => by
    have hc : ¬ (c = '\r') := h c (by simp)
    have ih := universalNewlines_id (c2 :: rest)
      (fun x hx => h x (List.mem_cons_of_mem c hx))
    simp [universalNewlines, hc, ih]

/-- Counterexample for claim C8: the content `"a\rb"` written with
`write_file_to_disk` reads back as `"a\nb"` — text-mode reading with the
default `newline=None` translates the carriage return — so the round trip
does not return the original content unchanged for every content string. -/
theorem claim8_text_roundtrip_counterexample :
    read_file_from_disk
        (write_file_to_disk [] (("p").data) (("a\rb").data) (("utf-8").data))
        (("p").data) (("utf-8").data) false
      = .ok (ReadRet.str (("a\nb").data))
    ∧ ("a\nb").data ≠ ("a\rb").data := by
  refine ⟨by decide, by decide⟩

/-- Claim C8 (amended): for every text content containing no carriage
return, every path and encoding, `write_file_to_disk` followed by
`read_file_from_disk` (single-string mode) at the same path with the same
encoding returns the original content unchanged.  Contents containing
`"\r"` or `"\r\n"` come back with those sequences translated to `"\n"` by
universal-newline reading. -/
theorem claim8_text_roundtrip_amended (fs : TextDisk) (path content enc : List Char)
    (h : ∀ c ∈ content, c ≠ '\r') :
    read_file_from_disk (write_file_to_disk fs path content enc) path enc false
      = .ok (ReadRet.str content) := by
  unfold write_file_to_disk
  rw [writeNewlineTranslated_id]
  simp [read_file_from_disk, fsGet_set_self, universalNewlines_id content h]

/-- Witness for claim C8 (amended) at the content `"ab"`. -/
theorem claim8_text_roundtrip_amended_witness :
    read_file_from_disk
        (write_file_to_disk [] (("p").data) (("ab").data) (("utf-8").data))
        (("p").data) (("utf-8").data) false
      = .ok (ReadRet.str (("ab").data)) :=
  claim8_text_roundtrip_amended [] (("p").data) (("ab").data) (("utf-8").data)
    (by decide)

/-! ### Claims C5 and C6: address normalization -/

theorem getLastQ_mem : ∀ (l : List Char) (a : Char), l.getLast? = some a → a ∈ l
  | [], _, h => by cases h
  | [x], a, h => by
    simp [List.getLast?] at h
    simp [h]
  | x :: y :: rest, a, h => by
    rw [List.getLast?_cons_cons] at h
    exact List.mem_cons_of_mem x (getLastQ_mem (y :: rest) a h)

/-- On newline-free input, the compiled regex test of utils.py line 105
agrees exactly with the spec's wording "ends with a colon followed by 1-5
digits". -/
theorem portIncMatch_eq_endsWith (s : List Char) (hnl : ∀ c ∈ s, c ≠ '\n') :
    portIncMatch s = endsWithColonDigits s := by
  rw [Bool.eq_iff_iff]
  constructor
  · intro hp
    rw [portIncMatch, List.any_eq_true] at hp
    obtain ⟨i, _, hmatch⟩ := hp
    rw [regexMatchAt, Bool.and_eq_true, Bool.and_eq_true] at hmatch
    obtain ⟨⟨-, hcolon⟩, hdollar⟩ := hmatch
    rw [beq_iff_eq] at hcolon
    have hilen : i < s.length := by
      by_contra hge
      rw [List.get?_eq_none.mpr (by omega)] at hcolon
      exact Option.noConfusion hcolon
    rw [dollarDigits, Bool.or_eq_true] at hdollar
    rcases hdollar with hd | hd
    · rw [Bool.and_eq_true, Bool.and_eq_true] at hd
      obtain ⟨⟨h1, h2⟩, h3⟩ := hd
      simp only [decide_eq_true_eq, List.length_drop] at h1 h2
      rw [endsWithColonDigits, List.any_eq_true]
      refine ⟨s.length - i - 2, List.mem_range.mpr (by omega), ?_⟩
      rw [suffixCheck, Bool.and_eq_true, Bool.and_eq_true]
      refine ⟨⟨by simp only [decide_eq_true_eq]; omega, ?_⟩, ?_⟩
      · rw [beq_iff_eq, show s.length - (s.length - i - 2 + 1) - 1 = i from by omega]
        exact hcolon
      · rw [show s.length - (s.length - i - 2 + 1) = i + 1 from by omega]
        exact h3
    · rw [Bool.and_eq_true, Bool.and_eq_true, Bool.and_eq_true] at hd
      obtain ⟨⟨⟨h0, -⟩, -⟩, -⟩ := hd
      rw [beq_iff_eq] at h0
      have hmem : '\n' ∈ s.drop (i + 1) := getLastQ_mem _ _ h0
      exact absurd rfl (hnl '\n' (List.drop_subset _ _ hmem))
  · intro he
    rw [endsWithColonDigits, List.any_eq_true] at he
    obtain ⟨j, hj, hsc⟩ := he
    rw [List.mem_range] at hj
    rw [suffixCheck, Bool.and_eq_true, Bool.and_eq_true] at hsc
    obtain ⟨⟨h1, h2⟩, h3⟩ := hsc
    simp only [decide_eq_true_eq] at h1
    rw [beq_iff_eq] at h2
    rw [portIncMatch, List.any_eq_true]
    refine ⟨s.length - j - 2, List.mem_range.mpr (by omega), ?_⟩
    rw [regexMatchAt, Bool.and_eq_true, Bool.and_eq_true]
    refine ⟨⟨?_, ?_⟩, ?_⟩
    · rw [List.all_eq_true]
      intro c hc
      simp only [decide_eq_true_eq]
      exact hnl c (List.take_subset _ _ hc)
    · rw [beq_iff_eq, show s.length - j - 2 = s.length - (j + 1) - 1 from by omega]
      exact h2
    · rw [show s.length - j - 2 + 1 = s.length - (j + 1) from by omega, dollarDigits,
        Bool.or_eq_true]
      left
      rw [Bool.and_eq_true, Bool.and_eq_true]
      refine ⟨⟨?_, ?_⟩, h3⟩
      · simp only [decide_eq_true_eq, List.length_drop]
        omega
      · simp only [decide_eq_true_eq, List.length_drop]
        omega

/-- Counterexample for claim C5: the address `"host:80\n"` does not end with
a colon followed by 1-5 digits (it ends with a newline), so by the claim the
default port should be appended; but Python's `$` matches just before a
trailing newline, `re.match` succeeds, and `normalize_xmlrpc_address`
appends nothing — its result differs from the spec-worded
`specNormalizeAddress` on this input. -/
theorem claim5_normalize_counterexample :
    endsWithColonDigits (("host:80\n").data) = false
    ∧ normalize_xmlrpc_address (("host:80\n").data) 8270 = ("http://host:80\n").data
    ∧ normalize_xmlrpc_address (("host:80\n").data) 8270 ≠ ("http://host:80\n:8270").data
    ∧ specNormalizeAddress (("host:80\n").data) 8270 = ("http://host:80\n:8270").data := by
  refine ⟨by decide, by decide, by decide, by decide⟩

/-- Claim C5 (amended): for every address containing no newline character
and every default port, `normalize_xmlrpc_address` behaves exactly as the
claim words it (append `:default_port` unless the address ends with a colon
followed by 1-5 digits, then prepend `http://` unless the result starts with
the case-insensitive prefix `http`); both quoted examples hold.  For
addresses containing newlines the regex `.*:[0-9]{1,5}$` under `re.match`
diverges from that wording (`$` also matches before a trailing newline and
`.` does not cross a newline). -/
theorem claim5_normalize_amended (address : List Char) (default_port : Int)
    (hnl : ∀ c ∈ address, c ≠ '\n') :
    normalize_xmlrpc_address address default_port
        = specNormalizeAddress address default_port
    ∧ normalize_xmlrpc_address (("localhost").data) 8270 = ("http://localhost:8270").data
    ∧ normalize_xmlrpc_address (("10.0.0.5:9000").data) 8270
        = ("http://10.0.0.5:9000").data := by
  refine ⟨?_, by decide, by decide⟩
  unfold normalize_xmlrpc_address specNormalizeAddress
  rw [portIncMatch_eq_endsWith address hnl]

/-- Witness for claim C5 (amended) at the newline-free address `"myhost"`. -/
theorem claim5_normalize_amended_witness :
    normalize_xmlrpc_address (("myhost").data) 8270
        = specNormalizeAddress (("myhost").data) 8270
    ∧ normalize_xmlrpc_address (("localhost").data) 8270 = ("http://localhost:8270").data
    ∧ normalize_xmlrpc_address (("10.0.0.5:9000").data) 8270
        = ("http://10.0.0.5:9000").data :=
  claim5_normalize_amended (("myhost").data) 8270 (by decide)

/-- Claim C6: an address that already carries a scheme but lacks a trailing
port gets the default port appended after the scheme-qualified host, with
the scheme left untouched. -/
theorem claim6_scheme_port_append :
    normalize_xmlrpc_address (("http://myhost").data) 8270
      = ("http://myhost:8270").data := by
  decide

/-! ### Claim C7: ancestry path -/

theorem getLastQ_cons_some : ∀ (c : Char) (l : List Char), ∃ a, (c :: l).getLast? = some a
  | c, [] => ⟨c, rfl⟩
  | c, y :: ys => by
    obtain ⟨a, ha⟩ := getLastQ_cons_some y ys
    exact ⟨a, by rw [List.getLast?_cons_cons]; exact ha⟩

theorem startsWithChars_single (c : Char) (b : List Char) :
    startsWithChars [c] b = (b.head? == some c) := by
  cases b with
  | nil => rfl
  | cons x xs =>
    rw [Bool.eq_iff_iff]
    simp [startsWithChars, beq_iff_eq]
    exact eq_comm

theorem foldl_joinTwo (names : List (List Char)) :
    ∀ acc : List Char, acc ≠ [] → acc.getLast? ≠ some '/' →
      (∀ nm ∈ names, WFName nm) →
      names.foldl joinTwo acc = acc ++ names.flatMap (fun nm => '/' :: nm) := by
  induction names with
  | nil =>
    intro acc _ _ _
    simp
  | cons nm rest ih =>
    intro acc hne hlast hwf
    have hw := hwf nm (by simp)
    have hj : joinTwo acc nm = acc ++ '/' :: nm := by
      rw [joinTwo, startsWithChars_single]
      have h1 : (nm.head? == some '/') = false := by
        cases hh : nm.head? with
        | none => rfl
        | some c =>
          have hc : c ≠ '/' := fun hcc => hw.2.1 (by rw [hh, hcc])
          simp [hc]
      rw [h1]
      have h2 : acc.isEmpty = false := by
        cases acc with
        | nil => exact absurd rfl hne
        | cons _ _ => rfl
      have h3 : (acc.getLast? == some '/') = false := by
        cases hh : acc.getLast? with
        | none => rfl
        | some c =>
          have hc : c ≠ '/' := fun hcc => hlast (by rw [hh, hcc])
          simp [hc]
      simp [h2, h3]
    rw [List.foldl_cons, hj]
    have hacc2ne : acc ++ '/' :: nm ≠ [] := by simp
    have hacc2last : (acc ++ '/' :: nm).getLast? ≠ some '/' := by
      cases hn : nm with
      | nil => exact absurd hn hw.1
      | cons y ys =>
        obtain ⟨a, ha⟩ := getLastQ_cons_some y ys
        have hane : a ≠ '/' := by
          intro hcc
          apply hw.2.2
          rw [hn, ha, hcc]
        rw [List.getLast?_append, List.getLast?_cons_cons, ha]
        intro hh
        simp [Option.or] at hh
        exact hane hh
    rw [ih (acc ++ '/' :: nm) hacc2ne hacc2last (fun x hx => hwf x (by simp [hx]))]
    simp

/-- For well-formed names (nonempty, neither starting nor ending with a
slash), POSIX `os.path.join` is the plain forward-slash join. -/
theorem osPathJoin_wf (names : List (List Char)) (h : ∀ nm ∈ names, WFName nm) :
    osPathJoin names = slashJoined names := by
  cases names with
  | nil => rfl
  | cons h0 t =>
    have hw := h h0 (by simp)
    rw [osPathJoin, slashJoined]
    exact foldl_joinTwo t h0 hw.1 hw.2.2 (fun x hx => h x (by simp [hx]))

/-- Counterexample for claim C7: a node whose two ancestors are named `"a"`
(the root) and `"/b"` has ancestor names `["a", "/b"]` in root-to-node
order, so by the claim the result is their forward-slash join `"a//b"`; but
`os.path.join` discards everything before a component that starts with a
slash, and `calculate_ts_parent_path` returns `"/b"`. -/
theorem claim7_ancestor_path_counterexample :
    calculate_ts_parent_path (Suite.child (("n").data)
        (Suite.child (("/b").data) (Suite.root (("a").data)))) = ("/b").data
    ∧ slashJoined [(("a").data), (("/b").data)] = ("a//b").data
    ∧ ("/b").data ≠ ("a//b").data := by
  refine ⟨by decide, by decide, by decide⟩

/-- Claim C7 (amended): `calculate_ts_parent_path` returns the empty string
for a node with no parent, and never a null value (it is a total function
into strings).  For a node with a parent whose ancestor names are all
nonempty and neither start nor end with a forward slash, it returns exactly
the ancestors' names in root-to-node order joined with forward slashes,
with backslashes converted to forward slashes; the node's own name never
influences the result.  The three-level example evaluates to
`"Root/Mid/Leaf"`.  (For ancestor names that are empty or start with a
slash, `os.path.join` collapses or resets the join, so the plain-join
reading of the claim fails there.) -/
theorem claim7_ancestor_path_amended (nm : List Char) (p : Suite) :
    calculate_ts_parent_path (Suite.root nm) = []
    ∧ ((∀ x ∈ chainNames p, WFName x) →
        calculate_ts_parent_path (Suite.child nm p)
          = backslashToSlash (slashJoined ((chainNames p).reverse)))
    ∧ (∀ nm2, calculate_ts_parent_path (Suite.child nm p)
        = calculate_ts_parent_path (Suite.child nm2 p))
    ∧ calculate_ts_parent_path (Suite.child ([])
        (Suite.child (("Leaf").data) (Suite.child (("Mid").data)
          (Suite.root (("Root").data))))) = ("Root/Mid/Leaf").data := by
  refine ⟨rfl, ?_, fun nm2 => rfl, by decide⟩
  intro hwf
  rw [calculate_ts_parent_path,
    osPathJoin_wf _ (fun x hx => hwf x (List.mem_reverse.mp hx))]

/-- Witness for claim C7 (amended) at a three-level ancestry with
well-formed names. -/
theorem claim7_ancestor_path_amended_witness :
    calculate_ts_parent_path (Suite.child (("X").data)
        (Suite.child (("Leaf").data) (Suite.child (("Mid").data)
          (Suite.root (("Root").data)))))
      = backslashToSlash (slashJoined ((chainNames
          (Suite.child (("Leaf").data) (Suite.child (("Mid").data)
            (Suite.root (("Root").data))))).reverse)) :=
  (claim7_ancestor_path_amended (("X").data)
      (Suite.child (("Leaf").data) (Suite.child (("Mid").data)
        (Suite.root (("Root").data))))).2.1 (by decide)
